import Mathlib

/-
Verification development for the linear-regression library in
src/Lab_2_4_LR2.py (class LinearRegressor with least-squares and
gradient-descent fitting, prediction, regression metrics, and a one-hot
encoder for categorical columns).

Modelling conventions:
* numpy float arrays are modelled as `List ℚ` / `List (List ℚ)` with exact
  rational arithmetic; numpy's n-dimensional dispatch (`np.ndim`) is modelled
  by the `NDInput` sum type.
* `np.random.rand` draws are passed in explicitly as parameters
  (`randIntercept`, `randCoef`), so the gradient-descent initialisation is a
  deterministic function of those draws.
* `np.linalg.pinv` is modelled by the classical adjugate inverse
  `pinvL A = det(A)⁻¹ · adj(A)`, which agrees with the Moore-Penrose
  pseudo-inverse on invertible matrices (the only case exercised by the
  statements proved below).
* `np.sqrt` is modelled by `Real.sqrt`, which is the one place the embedding
  is noncomputable.
* Python `raise ValueError` is modelled by `Except`/error-result values.
* The cells of the matrices handled by `one_hot_encode` may be numbers or
  strings (numpy arrays of any dtype), modelled by the sum type `Cell`;
  `np.unique` (sorted distinct values) is modelled by an insertion sort that
  skips duplicates, with numpy's lexicographic string order modelled on the
  code points.
-/

namespace Lab24

/-! ## numpy primitives over lists of rationals -/

/-- `a.dot(b)` for 1-D arrays: sum of elementwise products. -/
def npDot (a b : List ℚ) : ℚ := (List.zipWith (· * ·) a b).sum

/-- `X.T` for a 2-D array: column `j` of `X` becomes row `j`. -/
def npTranspose (X : List (List ℚ)) : List (List ℚ) :=
  (List.range (X.headD []).length).map (fun j => X.map (fun r => r.getD j 0))

/-- `A.dot(v)` for a 2-D `A` and 1-D `v`: row-wise dot products. -/
def matVec (A : List (List ℚ)) (v : List ℚ) : List ℚ := A.map (fun r => npDot r v)

/-- `A @ B` for 2-D arrays: each row of `A` dotted with each column of `B`. -/
def matMul (A B : List (List ℚ)) : List (List ℚ) :=
  A.map (fun r => matVec (npTranspose B) r)

/-- `np.mean(l)`: sum divided by length. -/
def npMean (l : List ℚ) : ℚ := l.sum / l.length

/-- numpy broadcasting for the elementwise product of two 1-D arrays:
defined when the lengths agree or one of the operands has length 1;
any other shape pair raises a broadcast error (`none`). -/
def npBroadcastMul (a b : List ℚ) : Option (List ℚ) :=
  if a.length = b.length then some (List.zipWith (· * ·) a b)
  else if b.length = 1 then some (a.map (fun x => x * b.headD 0))
  else if a.length = 1 then some (b.map (fun x => a.headD 0 * x))
  else none

/-- Determinant by Laplace expansion along the first row; the `fuel`
argument (instantiated with the number of rows in `detL`) makes the
recursion structural. -/
def detRows : ℕ → List (List ℚ) → ℚ
  | _, [] => 1
  | 0, _ :: _ => 0
  | fuel+1, r :: rest =>
    ((List.range r.length).map (fun j =>
      (-1 : ℚ)^j * r.getD j 0 * detRows fuel (rest.map (fun rr => rr.eraseIdx j)))).sum

/-- Determinant of a square matrix given as a list of rows. -/
def detL (A : List (List ℚ)) : ℚ := detRows A.length A

/-- The minor of `A` obtained by deleting row `i` and column `j`. -/
def minorL (A : List (List ℚ)) (i j : ℕ) : List (List ℚ) :=
  (A.eraseIdx i).map (fun r => r.eraseIdx j)

/-- Adjugate (transposed cofactor matrix). -/
def adjL (A : List (List ℚ)) : List (List ℚ) :=
  (List.range A.length).map (fun i => (List.range A.length).map (fun j =>
    (-1 : ℚ)^(i+j) * detL (minorL A j i)))

/-- Model of `np.linalg.pinv` on a square matrix: the classical inverse
`det(A)⁻¹ · adj(A)`.  For invertible `A` this is exactly the Moore-Penrose
pseudo-inverse computed by numpy; the singular case (where numpy would
return a genuine pseudo-inverse) is not exercised by any statement below. -/
def pinvL (A : List (List ℚ)) : List (List ℚ) :=
  (adjL A).map (fun r => r.map (fun x => (detL A)⁻¹ * x))

/-! ## The LinearRegressor class -/

/-- A numpy argument that may be 1-D (`np.ndim X = 1`) or 2-D. -/
inductive NDInput where
  | flat (x : List ℚ)
  | mat (rows : List (List ℚ))

/-- The mutable state of a `LinearRegressor` object: `self.intercept` and
`self.coefficients`, each `None` until a fit writes them. -/
structure LinearRegressor where
  intercept : Option ℚ
  coefficients : Option (List ℚ)

/-- `LinearRegressor.__init__`: both parameters start as `None`. -/
def LinearRegressor.init : LinearRegressor :=
  { intercept := none, coefficients := none }

/-- The two kinds of `ValueError` that `predict` can surface: the explicit
"Model is not yet fitted" raise, and the broadcast error numpy raises when
the 1-D input cannot be multiplied with the coefficient vector. -/
inductive PredictError where
  | notFitted
  | broadcastMismatch

/-- `X.dot(self.coefficients) + self.intercept` for a 2-D `X`. -/
def predictRows (M : List (List ℚ)) (w : List ℚ) (b : ℚ) : List ℚ :=
  (matVec M w).map (fun p => p + b)

/-- `LinearRegressor.predict`: raises "Model is not yet fitted" when either
parameter is `None`; for 1-D input computes `X * coefficients + intercept`
(numpy broadcasting); for 2-D input computes `X.dot(coefficients) +
intercept`, which requires every row of `X` to have as many entries as there
are coefficients.  Pure: the model state is read, never written. -/
def LinearRegressor.predict (self : LinearRegressor) (X : NDInput) :
    Except PredictError (List ℚ) :=
  match self.coefficients, self.intercept with
  | some w, some b =>
    match X with
    | .flat x =>
      match npBroadcastMul x w with
      | some l => .ok (l.map (fun p => p + b))
      | none => .error .broadcastMismatch
    | .mat M =>
      if M.all (fun r => r.length = w.length) then .ok (predictRows M w b)
      else .error .broadcastMismatch
  | _, _ => .error .notFitted

/-- `fit_multiple`: `w = np.linalg.pinv(X.T @ X) @ X.T @ y` on the
bias-augmented matrix `X`, then `intercept = w[0]`,
`coefficients = w[1:]`. -/
def fit_multiple (X : List (List ℚ)) (y : List ℚ) : LinearRegressor :=
  let Xt := npTranspose X
  let w := matVec (matMul (pinvL (matMul Xt X)) Xt) y
  { intercept := some (w.getD 0 0), coefficients := some (w.drop 1) }

/-- One iteration of the gradient-descent loop body: predictions with the
current parameters on the non-bias columns `X[:, 1:]`, error, mean squared
error of this iteration, and the updated `(intercept, coefficients)` state
after `intercept -= gradient[0]`, `coefficients -= gradient[1:]` with
`gradient = (learning_rate / m) * X.T.dot(error)`, `m = len(y)`.
Returns `(mse, updated state)`. -/
def gdIteration (X : List (List ℚ)) (y : List ℚ) (learning_rate : ℚ)
    (s : ℚ × List ℚ) : ℚ × (ℚ × List ℚ) :=
  let predictions := predictRows (X.map (List.drop 1)) s.2 s.1
  let error := List.zipWith (· - ·) predictions y
  let mse := npMean (error.map (fun e => e^2))
  let gradient :=
    (matVec (npTranspose X) error).map (fun g => (learning_rate / (y.length : ℚ)) * g)
  (mse, (s.1 - gradient.getD 0 0, List.zipWith (· - ·) s.2 (gradient.drop 1)))

/-- The updated parameter state of one gradient-descent iteration. -/
def gdState (X : List (List ℚ)) (y : List ℚ) (learning_rate : ℚ)
    (s : ℚ × List ℚ) : ℚ × List ℚ :=
  (gdIteration X y learning_rate s).2

/-- The mean squared error recorded by one gradient-descent iteration
(computed from the state `s` *before* the update of that iteration). -/
def gdLoss (X : List (List ℚ)) (y : List ℚ) (learning_rate : ℚ)
    (s : ℚ × List ℚ) : ℚ :=
  (gdIteration X y learning_rate s).1

/-- The `for epoch in range(iterations)` loop of `fit_gradient_descent`,
starting from parameter state `s`.  Returns the final state together with
`self.loss_values` and `self.param_history` (each iteration appends the MSE
and the current `(intercept, coefficients)` snapshot *before* applying its
update).  The loop has no convergence check; the `print` every 100000
epochs is pure logging and is not modelled. -/
def gdLoop (X : List (List ℚ)) (y : List ℚ) (learning_rate : ℚ) :
    ℕ → ℚ × List ℚ → (ℚ × List ℚ) × List ℚ × List (ℚ × List ℚ)
  | 0, s => (s, [], [])
  | T+1, s =>
    let out := gdLoop X y learning_rate T (gdState X y learning_rate s)
    (out.1, gdLoss X y learning_rate s :: out.2.1, s :: out.2.2)

/-- `fit_gradient_descent` on the bias-augmented matrix `X`: initialises
`coefficients = np.random.rand(X.shape[1] - 1) * 0.01` and
`intercept = np.random.rand() * 0.01` (the uniform draws in `[0, 1)` are
supplied as `randCoef` / `randIntercept`), then runs `iterations` loop
steps.  Returns the final model together with the loss and parameter
histories. -/
def fit_gradient_descent (X : List (List ℚ)) (y : List ℚ) (learning_rate : ℚ)
    (iterations : ℕ) (randIntercept : ℚ) (randCoef : ℕ → ℚ) :
    LinearRegressor × List ℚ × List (ℚ × List ℚ) :=
  let w0 := (List.range ((X.headD []).length - 1)).map (fun i => randCoef i * (1/100))
  let b0 := randIntercept * (1/100)
  let out := gdLoop X y learning_rate iterations (b0, w0)
  ({ intercept := some out.1.1, coefficients := some out.1.2 }, out.2)

/-- The `ValueError` raised by `fit` for a method string other than
"least_squares" or "gradient_descent". -/
inductive FitError where
  | invalidMethod (method : String)

/-- The reshape at the top of `fit`: a 1-D `X` becomes a single-column
matrix (`X.reshape(-1, 1)`); a 2-D `X` is left alone. -/
def reshape2d (X : NDInput) : List (List ℚ) :=
  match X with
  | .flat x => x.map (fun v => [v])
  | .mat M => M

/-- `np.c_[np.ones(X.shape[0]), X]`: prepend the bias column of ones. -/
def addBias (M : List (List ℚ)) : List (List ℚ) := M.map (fun r => 1 :: r)

/-- `LinearRegressor.fit`: validates `method`, reshapes a 1-D `X` into a
single column, prepends the bias column, and dispatches to `fit_multiple`
or `fit_gradient_descent`.  Returns the model state after the call together
with the raised error, if any (on an invalid method the state `self` is
returned unchanged, because the method check precedes every assignment). -/
def LinearRegressor.fit (self : LinearRegressor) (X : NDInput) (y : List ℚ)
    (method : String) (learning_rate : ℚ) (iterations : ℕ)
    (randIntercept : ℚ) (randCoef : ℕ → ℚ) :
    LinearRegressor × Option FitError :=
  if method = "least_squares" ∨ method = "gradient_descent" then
    let X_with_bias := addBias (reshape2d X)
    if method = "least_squares" then
      (fit_multiple X_with_bias y, none)
    else
      ((fit_gradient_descent X_with_bias y learning_rate iterations
          randIntercept randCoef).1, none)
  else
    (self, some (.invalidMethod method))

/-! ## evaluate_regression -/

/-- `RSS = np.sum((y_true - y_pred) ** 2)`. -/
def RSS (y_true y_pred : List ℚ) : ℚ :=
  ((List.zipWith (· - ·) y_true y_pred).map (fun e => e^2)).sum

/-- `TSS = np.sum((y_true - np.mean(y_true)) ** 2)`. -/
def TSS (y_true : List ℚ) : ℚ :=
  ((y_true.map (fun a => a - npMean y_true)).map (fun e => e^2)).sum

/-- The dictionary returned by `evaluate_regression`: exactly the keys
"R2", "RMSE", "MAE". -/
structure RegressionMetrics where
  R2 : ℚ
  RMSE : ℝ
  MAE : ℚ

/-- `evaluate_regression`: `R2 = 1 - RSS/TSS`,
`RMSE = np.sqrt(1/N * np.sum((y_true - y_pred)^2))`,
`MAE = 1/N * np.sum(abs(y_true - y_pred))` with `N = len(y_pred)`.
Noncomputable only because the square root is taken in `ℝ`. -/
noncomputable def evaluate_regression (y_true y_pred : List ℚ) : RegressionMetrics :=
  let r_squared := 1 - RSS y_true y_pred / TSS y_true
  let N : ℚ := (y_pred.length : ℚ)
  let rmse := Real.sqrt
    (((1/N) * ((List.zipWith (· - ·) y_true y_pred).map (fun e => e^2)).sum : ℚ) : ℝ)
  let mae := (1/N) * ((List.zipWith (· - ·) y_true y_pred).map (fun e => |e|)).sum
  { R2 := r_squared, RMSE := rmse, MAE := mae }

/-! ## one_hot_encode -/

/-- A cell of the matrices handled by `one_hot_encode`: a number or a
string (numpy supports any dtype; the indicator entries written by the
encoder are the Python integers `0` and `1`). -/
abbrev Cell := ℤ ⊕ String

/-- Lexicographic code-point comparison of character lists (numpy's string
order). -/
def charListLt : List Char → List Char → Bool
  | [], [] => false
  | [], _ :: _ => true
  | _ :: _, [] => false
  | a :: as, b :: bs =>
    decide (a.toNat < b.toNat) || (decide (a.toNat = b.toNat) && charListLt as bs)

/-- numpy's string comparison: lexicographic on code points. -/
def strLt (a b : String) : Bool := charListLt a.data b.data

/-- The total order used by `np.unique` to sort cells (numbers before
strings; numpy arrays are homogeneous, so the cross case never matters). -/
def cellLe : Cell → Cell → Bool
  | .inl a, .inl b => decide (a ≤ b)
  | .inl _, .inr _ => true
  | .inr _, .inl _ => false
  | .inr a, .inr b => strLt a b || decide (a = b)

/-- The indicator value `1` written by the encoder. -/
def cellOne : Cell := Sum.inl 1

/-- The indicator value `0` written by the encoder. -/
def cellZero : Cell := Sum.inl 0

/-- Ordered insertion with respect to `cellLe`. -/
def insertSorted (x : Cell) : List Cell → List Cell
  | [] => [x]
  | y :: ys => if cellLe x y then x :: y :: ys else y :: insertSorted x ys

/-- Boolean membership test on cells. -/
def cellMem (x : Cell) : List Cell → Bool
  | [] => false
  | y :: ys => x = y || cellMem x ys

/-- Insert into a sorted duplicate-free list, skipping the element if it is
already present. -/
def insertSortedNoDup (x : Cell) (l : List Cell) : List Cell :=
  if cellMem x l then l else insertSorted x l

/-- `np.unique(column)`: the sorted distinct values of the column. -/
def npUnique (l : List Cell) : List Cell := l.foldr insertSortedNoDup []

/-- Insert into a list sorted in descending order (used to model
`sorted(categorical_indices, reverse=True)`). -/
def insertDesc (x : ℕ) : List ℕ → List ℕ
  | [] => [x]
  | y :: ys => if y ≤ x then x :: y :: ys else y :: insertDesc x ys

/-- `sorted(l, reverse=True)`: the indices in descending order. -/
def sortDesc (l : List ℕ) : List ℕ := l.foldr insertDesc []

/-- The indicator row `[1 if category == val else 0 for val in u]`. -/
def indicRow (u : List Cell) (category : Cell) : List Cell :=
  u.map (fun val => if category = val then cellOne else cellZero)

/-- `np.delete(M, i, axis=1)`: remove column `i`. -/
def deleteCol (M : List (List Cell)) (i : ℕ) : List (List Cell) :=
  M.map (fun r => r.eraseIdx i)

/-- `np.insert(M, i, H.T, axis=1)`: splice the rows of `H` in as new
columns starting at position `i` (row `r` of the result is row `r` of `M`
with row `r` of `H` inserted at position `i`). -/
def insertCols (M : List (List Cell)) (i : ℕ) (H : List (List Cell)) :
    List (List Cell) :=
  List.zipWith (fun r h => r.take i ++ h ++ r.drop i) M H

/-- The body of the loop of `one_hot_encode` for one categorical index:
extract column `index` **of the original matrix `X`**, build the indicator
matrix from its sorted distinct values, optionally drop the first indicator
column, then delete column `index` of the running matrix and splice the
indicator columns in at the same position. -/
def oneHotStep (X : List (List Cell)) (drop_first : Bool)
    (Xt : List (List Cell)) (index : ℕ) : List (List Cell) :=
  let categorical_column := X.map (fun r => r.getD index cellZero)
  let unique_values := npUnique categorical_column
  let one_hot := categorical_column.map (fun category => indicRow unique_values category)
  let one_hot2 := if drop_first then one_hot.map (List.drop 1) else one_hot
  insertCols (deleteCol Xt index) index one_hot2

/-- `one_hot_encode(X, categorical_indices, drop_first)`: fold the
per-column step over the indices in descending order, starting from a copy
of `X`. -/
def one_hot_encode (X : List (List Cell)) (categorical_indices : List ℕ)
    (drop_first : Bool) : List (List Cell) :=
  (sortDesc categorical_indices).foldl (oneHotStep X drop_first) X

/-- The number of features of a fit input: a flat `X` is one feature
(reshaped into a single column); a 2-D `X` has one feature per column. -/
def featureCount : NDInput → ℕ
  | .flat _ => 1
  | .mat M => (M.headD []).length

/-- A fit input with at least one sample row. -/
def nonemptyInput : NDInput → Prop
  | .flat x => x ≠ []
  | .mat M => M ≠ []

/-! ## Shared list lemmas -/

theorem getD_map_of_lt {α β : Type _} (f : α → β) (l : List α) (i : ℕ)
    (h : i < l.length) (d : β) (d' : α) : (l.map f).getD i d = f (l.getD i d') := by
  rw [List.getD_eq_getElem _ d (by simpa using h), List.getD_eq_getElem _ d' h]
  simp

theorem getD_zipWith_of_lt {α β γ : Type _} (f : α → β → γ) (a : List α) (b : List β)
    (i : ℕ) (ha : i < a.length) (hb : i < b.length) (d : γ) (da : α) (db : β) :
    (List.zipWith f a b).getD i d = f (a.getD i da) (b.getD i db) := by
  rw [List.getD_eq_getElem _ d (by rw [List.length_zipWith]; omega),
      List.getD_eq_getElem _ da ha, List.getD_eq_getElem _ db hb]
  exact List.getElem_zipWith

theorem getD_range_of_lt (c j : ℕ) (h : j < c) (d : ℕ) : (List.range c).getD j d = j := by
  rw [List.getD_eq_getElem _ d (by simpa using h)]
  simp

theorem getD_mem_of_lt {α : Type _} (l : List α) (i : ℕ) (h : i < l.length) (d : α) :
    l.getD i d ∈ l := by
  rw [List.getD_eq_getElem _ d h]
  exact List.getElem_mem _

theorem getD_drop_of_lt {α : Type _} (l : List α) (k j : ℕ) (d : α)
    (h : k + j < l.length) : (l.drop k).getD j d = l.getD (k + j) d := by
  rw [List.getD_eq_getElem _ d (by rw [List.length_drop]; omega),
      List.getD_eq_getElem _ d h, List.getElem_drop]

theorem sum_zipWith_eq (f : ℚ → ℚ → ℚ) :
    ∀ (n : ℕ) (a b : List ℚ), a.length = n → b.length = n →
      (List.zipWith f a b).sum = ∑ i ∈ Finset.range n, f (a.getD i 0) (b.getD i 0) := by
  intro n
  induction n with
  | zero =>
    intro a b ha hb
    rw [List.length_eq_zero] at ha hb
    subst ha; subst hb; simp
  | succ n ih =>
    intro a b ha hb
    cases a with
    | nil => simp at ha
    | cons x a' =>
      cases b with
      | nil => simp at hb
      | cons y b' =>
        simp only [List.zipWith_cons_cons, List.sum_cons]
        rw [Finset.sum_range_succ' (fun i => f ((x :: a').getD i 0) ((y :: b').getD i 0)) n]
        simp only [List.getD_cons_succ, List.getD_cons_zero]
        rw [ih a' b' (by simpa using ha) (by simpa using hb)]
        exact add_comm _ _

theorem sum_map_eq (g : ℚ → ℚ) :
    ∀ (n : ℕ) (a : List ℚ), a.length = n →
      (a.map g).sum = ∑ i ∈ Finset.range n, g (a.getD i 0) := by
  intro n
  induction n with
  | zero =>
    intro a ha
    rw [List.length_eq_zero] at ha
    subst ha; simp
  | succ n ih =>
    intro a ha
    cases a with
    | nil => simp at ha
    | cons x a' =>
      simp only [List.map_cons, List.sum_cons]
      rw [Finset.sum_range_succ' (fun i => g ((x :: a').getD i 0)) n]
      simp only [List.getD_cons_succ, List.getD_cons_zero]
      rw [ih a' (by simpa using ha)]
      exact add_comm _ _

theorem npDot_eq_sum (a b : List ℚ) (n : ℕ) (ha : a.length = n) (hb : b.length = n) :
    npDot a b = ∑ i ∈ Finset.range n, a.getD i 0 * b.getD i 0 :=
  sum_zipWith_eq (· * ·) n a b ha hb

/-! ## Claim theorems -/

/-- Claim C7: `fit` raises an invalid-argument error at entry iff `method`
is neither "least_squares" nor "gradient_descent", and in that case the
model state is returned unchanged (no partial state is written). -/
theorem fit_invalid_method_iff (self : LinearRegressor) (X : NDInput) (y : List ℚ)
    (method : String) (lr : ℚ) (iters : ℕ) (rb : ℚ) (rc : ℕ → ℚ) :
    ((self.fit X y method lr iters rb rc).2.isSome ↔
      ¬(method = "least_squares" ∨ method = "gradient_descent")) ∧
    (¬(method = "least_squares" ∨ method = "gradient_descent") →
      self.fit X y method lr iters rb rc = (self, some (.invalidMethod method))) := by
  by_cases h : method = "least_squares" ∨ method = "gradient_descent"
  · constructor
    · rw [LinearRegressor.fit, if_pos h]
      by_cases h2 : method = "least_squares"
      · simp [h2]
      · have h3 : method = "gradient_descent" := h.resolve_left h2
        simp [h2, h3]
    · intro hc; exact absurd h hc
  · constructor
    · rw [LinearRegressor.fit, if_neg h]
      simp [h]
    · intro _
      rw [LinearRegressor.fit, if_neg h]

/-- Witness for C7 at a concrete invalid method string. -/
theorem fit_invalid_method_iff_witness :
    LinearRegressor.init.fit (.flat [1]) [1] "bogus" 1 1 0 (fun _ => 0) =
      (LinearRegressor.init, some (.invalidMethod "bogus")) :=
  (fit_invalid_method_iff LinearRegressor.init (.flat [1]) [1] "bogus" 1 1 0
    (fun _ => 0)).2 (by decide)

/-- Shared lemma: a `fit` call that raises no error writes `some` values
into both parameter slots. -/
theorem fit_success_set (self : LinearRegressor) (X : NDInput) (y : List ℚ)
    (method : String) (lr : ℚ) (iters : ℕ) (rb : ℚ) (rc : ℕ → ℚ)
    (h : (self.fit X y method lr iters rb rc).2 = none) :
    (∃ b, (self.fit X y method lr iters rb rc).1.intercept = some b) ∧
    (∃ w, (self.fit X y method lr iters rb rc).1.coefficients = some w) := by
  by_cases hm : method = "least_squares" ∨ method = "gradient_descent"
  · rw [LinearRegressor.fit, if_pos hm]
    by_cases h2 : method = "least_squares"
    · simp [h2, fit_multiple]
    · have h3 : method = "gradient_descent" := hm.resolve_left h2
      simp [h2, h3, fit_gradient_descent]
  · rw [LinearRegressor.fit, if_neg hm] at h
    simp at h

/-- Claim C6: `predict` raises the not-fitted error iff either parameter is
unset; in particular it does so before any fit (fresh model), and never
does after a successful fit. -/
theorem predict_notFitted_iff :
    (∀ (self : LinearRegressor) (X : NDInput),
      self.predict X = .error .notFitted ↔
        self.coefficients = none ∨ self.intercept = none) ∧
    (∀ X : NDInput, LinearRegressor.init.predict X = .error .notFitted) ∧
    (∀ (self : LinearRegressor) (X : NDInput) (y : List ℚ) (method : String)
      (lr : ℚ) (iters : ℕ) (rb : ℚ) (rc : ℕ → ℚ),
      (self.fit X y method lr iters rb rc).2 = none →
      ∀ X' : NDInput, (self.fit X y method lr iters rb rc).1.predict X' ≠ .error .notFitted) := by
  have key : ∀ (self : LinearRegressor) (X : NDInput),
      self.predict X = .error .notFitted ↔
        self.coefficients = none ∨ self.intercept = none := by
    rintro ⟨b?, w?⟩ X
    cases b? with
    | none => cases w? <;> simp [LinearRegressor.predict]
    | some b =>
      cases w? with
      | none => simp [LinearRegressor.predict]
      | some w =>
        simp only [LinearRegressor.predict]
        constructor
        · intro h
          cases X with
          | flat x =>
            rcases hcase : npBroadcastMul x w with _ | l <;> simp [hcase] at h
          | mat M =>
            by_cases hall : M.all (fun r => r.length = w.length) = true <;>
              simp [hall] at h
        · rintro (h | h) <;> simp at h
  refine ⟨key, fun X => (key _ X).2 (Or.inl rfl), ?_⟩
  intro self X y method lr iters rb rc h X' hc
  obtain ⟨⟨b, hb⟩, ⟨w, hw⟩⟩ := fit_success_set self X y method lr iters rb rc h
  rcases (key _ X').1 hc with h' | h' <;> simp_all

/-- Witness for C6: after a concrete successful least-squares fit, predict
does not raise the not-fitted error. -/
theorem predict_notFitted_iff_witness :
    (LinearRegressor.init.fit (.mat [[1], [2], [3]]) [2, 4, 6] "least_squares"
        1 10 0 (fun _ => 0)).1.predict (.flat [4]) ≠ .error .notFitted :=
  predict_notFitted_iff.2.2 LinearRegressor.init (.mat [[1], [2], [3]]) [2, 4, 6]
    "least_squares" 1 10 0 (fun _ => 0) (by simp [LinearRegressor.fit]) (.flat [4])

/-- Claim C5: on a fitted model, predict on a 1-D input with the single
coefficient `c` returns elementwise `X * c + intercept`; predict on a 2-D
input whose rows match the coefficient count returns each row's dot product
with the coefficients plus the intercept; and a 1-D input that cannot be
broadcast against a non-singleton coefficient vector is a broadcast error
(the elementwise formula indeed requires exactly one coefficient).  The
embedding of `predict` is a pure function of the model state. -/
theorem predict_formulas :
    (∀ (b c : ℚ) (x : List ℚ),
      (LinearRegressor.mk (some b) (some [c])).predict (.flat x) =
        .ok (x.map (fun v => v * c + b))) ∧
    (∀ (b : ℚ) (w : List ℚ) (M : List (List ℚ)), (∀ r ∈ M, r.length = w.length) →
      (LinearRegressor.mk (some b) (some w)).predict (.mat M) =
        .ok (M.map (fun r =>
          (∑ j ∈ Finset.range w.length, r.getD j 0 * w.getD j 0) + b))) ∧
    (∀ (b : ℚ) (w : List ℚ) (x : List ℚ),
      w.length ≠ 1 → x.length ≠ 1 → x.length ≠ w.length →
      (LinearRegressor.mk (some b) (some w)).predict (.flat x) =
        .error .broadcastMismatch) := by
  refine ⟨?_, ?_, ?_⟩
  · intro b c x
    by_cases h1 : x.length = 1
    · obtain ⟨v, rfl⟩ := List.length_eq_one.1 h1
      simp [LinearRegressor.predict, npBroadcastMul]
    · simp [LinearRegressor.predict, npBroadcastMul, h1, List.map_map, Function.comp]
  · intro b w M hM
    have hall : M.all (fun r => r.length = w.length) = true := by
      simp only [List.all_eq_true, decide_eq_true_eq]
      exact hM
    simp only [LinearRegressor.predict, if_pos hall, predictRows, matVec, List.map_map]
    congr 1
    refine List.map_congr_left (fun r hr => ?_)
    simp only [Function.comp_apply]
    rw [npDot_eq_sum r w w.length (hM r hr) rfl]
  · intro b w x hw hx1 hxw
    have h1 : ¬ x.length = w.length := hxw
    have h2 : ¬ w.length = 1 := hw
    simp [LinearRegressor.predict, npBroadcastMul, h1, h2, hx1]

/-- Witness for C5 at concrete inputs: a 2-row matrix against two
coefficients, and a broadcast mismatch. -/
theorem predict_formulas_witness :
    (LinearRegressor.mk (some (5 : ℚ)) (some [2, 3])).predict (.mat [[1, 1], [1, 2]]) =
      .ok ([[1, 1], [1, 2]].map (fun r =>
        (∑ j ∈ Finset.range ([2, 3] : List ℚ).length, r.getD j 0 * ([2, 3] : List ℚ).getD j 0) + 5)) ∧
    (LinearRegressor.mk (some (5 : ℚ)) (some [2, 3])).predict (.flat [1, 2, 3]) =
      .error .broadcastMismatch :=
  ⟨predict_formulas.2.1 5 [2, 3] [[1, 1], [1, 2]] (by decide),
   predict_formulas.2.2 5 [2, 3] [1, 2, 3] (by decide) (by decide) (by decide)⟩

/-- Helper rewrites for evaluating `List.range` on small literals. -/
theorem range_zero_eq : List.range 0 = [] := rfl

theorem range_one_eq : List.range 1 = [0] := rfl

theorem range_two_eq : List.range 2 = [0, 1] := rfl

theorem range_three_eq : List.range 3 = [0, 1, 2] := rfl

/-- Claim C3: fitting with "least_squares" reshapes a flat `X` into one
column, prepends the bias column, and stores `w[0]` / `w[1:]` of
`w = pinv(XᵗX)·Xᵗ·y` (computed by `fit_multiple`); on
`X = [[1],[2],[3]]`, `y = [2,4,6]` this gives intercept `0`, coefficients
`[2]`, and then `predict([4]) = [8]` (exact rational arithmetic). -/
theorem fit_least_squares_example :
    (∀ (self : LinearRegressor) (X : NDInput) (y : List ℚ) (lr : ℚ) (it : ℕ)
      (rb : ℚ) (rc : ℕ → ℚ),
      self.fit X y "least_squares" lr it rb rc =
        (fit_multiple (addBias (reshape2d X)) y, none)) ∧
    (∀ x : List ℚ, reshape2d (.flat x) = x.map (fun v => [v])) ∧
    (LinearRegressor.init.fit (.mat [[1], [2], [3]]) [2, 4, 6] "least_squares"
        1 1000 0 (fun _ => 0)).1 = ⟨some 0, some [2]⟩ ∧
    (LinearRegressor.mk (some 0) (some [2])).predict (.flat [4]) = .ok [8] := by
  refine ⟨?_, fun x => rfl, ?_, ?_⟩
  · intro self X y lr it rb rc
    simp [LinearRegressor.fit]
  · norm_num [LinearRegressor.fit, LinearRegressor.init, fit_multiple, matVec, matMul,
      pinvL, adjL, detL, detRows, minorL, npDot, npTranspose, addBias, reshape2d,
      range_zero_eq, range_one_eq, range_two_eq, range_three_eq, List.eraseIdx]
  · simp [LinearRegressor.predict, npBroadcastMul]
    norm_num

/-- Claim C2: `one_hot_encode` folds the per-column step over the indices
in descending order (shown both in general and for the pair `[0, 1]`, which
is processed as `1` then `0`), and on the concrete example
`[["a"], ["b"], ["a"]]` with index `0` and `drop_first = false` it returns
`[[1, 0], [0, 1], [1, 0]]` (indicator columns in sorted order of the
distinct values `"a" < "b"`). -/
theorem one_hot_encode_example :
    one_hot_encode [[Sum.inr "a"], [Sum.inr "b"], [Sum.inr "a"]] [0] false =
      [[Sum.inl 1, Sum.inl 0], [Sum.inl 0, Sum.inl 1], [Sum.inl 1, Sum.inl 0]] ∧
    (∀ (X : List (List Cell)) (d : Bool),
      one_hot_encode X [0, 1] d = oneHotStep X d (oneHotStep X d X 1) 0) ∧
    (∀ (X : List (List Cell)) (idxs : List ℕ) (d : Bool),
      one_hot_encode X idxs d = (sortDesc idxs).foldl (oneHotStep X d) X) :=
  ⟨by decide, fun X d => rfl, fun X idxs d => rfl⟩

/-- Shared lemma: a list's sum as a `Finset.range` sum over its entries. -/
theorem list_sum_eq (a : List ℚ) (n : ℕ) (ha : a.length = n) :
    a.sum = ∑ i ∈ Finset.range n, a.getD i 0 := by
  have := sum_map_eq id n a ha
  simpa using this

/-- Claim C4: `evaluate_regression` returns exactly the three metrics
R² = 1 − RSS/TSS, RMSE = √(mean squared error) and MAE = mean absolute
error (the three fields of `RegressionMetrics` model the dictionary keys
"R2", "RMSE", "MAE"), and on identical arguments with non-constant
`y_true` it returns R² = 1, RMSE = 0, MAE = 0. -/
theorem evaluate_regression_formulas (y t : List ℚ) (n : ℕ)
    (hy : y.length = n) (ht : t.length = n) (hTSS : TSS y ≠ 0) :
    (evaluate_regression y t).R2 =
      1 - (∑ i ∈ Finset.range n, (y.getD i 0 - t.getD i 0)^2) /
          (∑ i ∈ Finset.range n,
            (y.getD i 0 - (∑ j ∈ Finset.range n, y.getD j 0) / n)^2) ∧
    (evaluate_regression y t).RMSE =
      Real.sqrt (((∑ i ∈ Finset.range n, (y.getD i 0 - t.getD i 0)^2) / n : ℚ) : ℝ) ∧
    (evaluate_regression y t).MAE =
      (∑ i ∈ Finset.range n, |y.getD i 0 - t.getD i 0|) / n ∧
    (evaluate_regression y y).R2 = 1 ∧
    (evaluate_regression y y).RMSE = 0 ∧
    (evaluate_regression y y).MAE = 0 := by
  have hcast : ((y.length : ℚ)) = (n : ℚ) := by rw [hy]
  have hcast' : ((t.length : ℚ)) = (n : ℚ) := by rw [ht]
  have hRSS : ∀ t' : List ℚ, t'.length = n →
      ((List.zipWith (· - ·) y t').map (fun e => e^2)).sum =
        ∑ i ∈ Finset.range n, (y.getD i 0 - t'.getD i 0)^2 := by
    intro t' ht'
    rw [List.map_zipWith]
    exact sum_zipWith_eq (fun a b => (a - b)^2) n y t' hy ht'
  have hTSSsum : TSS y =
      ∑ i ∈ Finset.range n, (y.getD i 0 - (∑ j ∈ Finset.range n, y.getD j 0) / n)^2 := by
    have hb : (y.map (fun a => a - npMean y)).length = n := by simpa using hy
    rw [TSS, sum_map_eq (fun e => e^2) n _ hb]
    refine Finset.sum_congr rfl (fun i hi => ?_)
    rw [getD_map_of_lt _ y i (hy ▸ Finset.mem_range.1 hi) 0 0,
      npMean, list_sum_eq y n hy, hcast]
  have hz : List.zipWith (· - ·) y y = y.map (fun _ => (0:ℚ)) := by
    rw [List.zipWith_same]
    exact List.map_congr_left (fun a _ => sub_self a)
  have hRSS0 : ((List.zipWith (· - ·) y y).map (fun e => e^2)).sum = 0 := by
    rw [hz, List.map_map]
    have : ((fun e : ℚ => e^2) ∘ fun _ : ℚ => (0:ℚ)) = fun _ : ℚ => (0:ℚ) := by
      funext a; simp
    rw [this, List.map_const']
    simp
  have hMAE0 : ((List.zipWith (· - ·) y y).map (fun e => |e|)).sum = 0 := by
    rw [hz, List.map_map]
    have : ((fun e : ℚ => |e|) ∘ fun _ : ℚ => (0:ℚ)) = fun _ : ℚ => (0:ℚ) := by
      funext a; simp
    rw [this, List.map_const']
    simp
  refine ⟨?_, ?_, ?_, ?_, ?_, ?_⟩
  · show 1 - RSS y t / TSS y = _
    rw [RSS, hRSS t ht, hTSSsum]
  · show Real.sqrt _ = _
    have harg : (1 / (t.length : ℚ)) *
        ((List.zipWith (· - ·) y t).map (fun e => e^2)).sum =
        (∑ i ∈ Finset.range n, (y.getD i 0 - t.getD i 0)^2) / n := by
      rw [hRSS t ht, hcast', one_div, inv_mul_eq_div]
    congr 1
    exact_mod_cast harg
  · show (1 / (t.length : ℚ)) * _ = _
    rw [List.map_zipWith, sum_zipWith_eq (fun a b => |a - b|) n y t hy ht,
      hcast', one_div, inv_mul_eq_div]
  · show 1 - RSS y y / TSS y = 1
    rw [RSS, hRSS0, zero_div, sub_zero]
  · show Real.sqrt _ = 0
    rw [hRSS0]
    simp
  · show (1 / (y.length : ℚ)) * _ = 0
    rw [hMAE0, mul_zero]

/-- Witness for C4 at `y_true = y_pred = [1, 2, 3]` (non-constant, so
TSS ≠ 0): perfect predictions give R² = 1. -/
theorem evaluate_regression_formulas_witness :
    TSS [1, 2, 3] ≠ 0 ∧ (evaluate_regression [1, 2, 3] [1, 2, 3]).R2 = 1 :=
  ⟨by norm_num [TSS, npMean],
   (evaluate_regression_formulas [1, 2, 3] [1, 2, 3] 3 rfl rfl
      (by norm_num [TSS, npMean])).2.2.2.1⟩

/-- Claim C1: one iteration of gradient descent on a bias-augmented matrix
`X` (n rows of length p+1, bias column of ones), target `y` of length n and
learning rate `α` computes predictions with the current parameters on the
non-bias columns, sets `error = predictions − y` and
`gradient = (α/n) · Xᵗ · error` (length p+1), then updates
`intercept -= gradient[0]` and `coefficients -= gradient[1:]`
elementwise. -/
theorem gd_iteration_update (X : List (List ℚ)) (y : List ℚ) (α b : ℚ) (w : List ℚ)
    (n p : ℕ) (hn : 0 < n) (hX : X.length = n) (hy : y.length = n)
    (hw : w.length = p) (hrow : ∀ r ∈ X, r.length = p + 1)
    (hbias : ∀ r ∈ X, r.getD 0 0 = 1) :
    (gdIteration X y α (b, w)).2.1 =
      b - (α / n) * (∑ i ∈ Finset.range n, (X.getD i []).getD 0 0 *
        ((b + ∑ j ∈ Finset.range p, (X.getD i []).getD (j+1) 0 * w.getD j 0)
          - y.getD i 0)) ∧
    ((gdIteration X y α (b, w)).2.2).length = p ∧
    (∀ k, k < p → ((gdIteration X y α (b, w)).2.2).getD k 0 =
      w.getD k 0 - (α / n) * (∑ i ∈ Finset.range n, (X.getD i []).getD (k+1) 0 *
        ((b + ∑ j ∈ Finset.range p, (X.getD i []).getD (j+1) 0 * w.getD j 0)
          - y.getD i 0))) := by
  have hXlen : ∀ i, i < n → (X.getD i []).length = p + 1 := fun i hi =>
    hrow _ (getD_mem_of_lt X i (hX ▸ hi) [])
  have hMlen : (X.map (List.drop 1)).length = n := by simpa using hX
  have hmvlen : (matVec (X.map (List.drop 1)) w).length = n := by
    simpa [matVec] using hX
  have hPlen : (predictRows (X.map (List.drop 1)) w b).length = n := by
    simpa [predictRows] using hmvlen
  have hPval : ∀ i, i < n → (predictRows (X.map (List.drop 1)) w b).getD i 0 =
      b + ∑ j ∈ Finset.range p, (X.getD i []).getD (j+1) 0 * w.getD j 0 := by
    intro i hi
    rw [predictRows,
      getD_map_of_lt (fun v => v + b) _ i (hmvlen ▸ hi) 0 0,
      matVec, getD_map_of_lt (fun r => npDot r w) _ i (hMlen ▸ hi) 0 [],
      getD_map_of_lt (List.drop 1) X i (hX ▸ hi) [] []]
    have hdl : ((X.getD i []).drop 1).length = p := by
      rw [List.length_drop, hXlen i hi]
      omega
    rw [npDot_eq_sum _ w p hdl hw, add_comm]
    congr 1
    refine Finset.sum_congr rfl (fun j hj => ?_)
    have hj' : j < p := Finset.mem_range.1 hj
    rw [getD_drop_of_lt (X.getD i []) 1 j 0 (by rw [hXlen i hi]; omega),
      Nat.add_comm 1 j]
  have hElen : (List.zipWith (· - ·) (predictRows (X.map (List.drop 1)) w b) y).length = n := by
    rw [List.length_zipWith, hPlen, hy]
    omega
  have hEval : ∀ i, i < n →
      (List.zipWith (· - ·) (predictRows (X.map (List.drop 1)) w b) y).getD i 0 =
      (b + ∑ j ∈ Finset.range p, (X.getD i []).getD (j+1) 0 * w.getD j 0) - y.getD i 0 := by
    intro i hi
    rw [getD_zipWith_of_lt (· - ·) _ y i (hPlen ▸ hi) (hy ▸ hi) 0 0 0, hPval i hi]
  have hcols : (X.headD []).length = p + 1 := by
    cases X with
    | nil => rw [← hX] at hn; simp at hn
    | cons r X' => exact hrow r (List.mem_cons_self r X')
  have hTlen : (npTranspose X).length = p + 1 := by
    rw [npTranspose, List.length_map, List.length_range, hcols]
  have hTval : ∀ j, j < p + 1 →
      (npTranspose X).getD j [] = X.map (fun r => r.getD j 0) := by
    intro j hj
    rw [npTranspose,
      getD_map_of_lt (fun j => X.map (fun r => r.getD j 0)) _ j
        (by rw [List.length_range, hcols]; exact hj) [] 0,
      getD_range_of_lt _ j (by rw [hcols]; exact hj) 0]
  have hGlen :
      ((matVec (npTranspose X)
          (List.zipWith (· - ·) (predictRows (X.map (List.drop 1)) w b) y)).map
        (fun g => α / (y.length : ℚ) * g)).length = p + 1 := by
    rw [List.length_map, matVec, List.length_map, hTlen]
  have hGval : ∀ j, j < p + 1 →
      ((matVec (npTranspose X)
          (List.zipWith (· - ·) (predictRows (X.map (List.drop 1)) w b) y)).map
        (fun g => α / (y.length : ℚ) * g)).getD j 0 =
      (α / n) * (∑ i ∈ Finset.range n, (X.getD i []).getD j 0 *
        ((b + ∑ l ∈ Finset.range p, (X.getD i []).getD (l+1) 0 * w.getD l 0)
          - y.getD i 0)) := by
    intro j hj
    rw [getD_map_of_lt (fun g => α / (y.length : ℚ) * g) _ j
        (by rw [matVec, List.length_map, hTlen]; exact hj) 0 0,
      matVec, getD_map_of_lt
        (fun r => npDot r (List.zipWith (· - ·) (predictRows (X.map (List.drop 1)) w b) y))
        _ j (by rw [hTlen]; exact hj) 0 [],
      hTval j hj,
      npDot_eq_sum _ _ n (by simpa using hX) hElen, hy]
    congr 1
    refine Finset.sum_congr rfl (fun i hi => ?_)
    have hi' : i < n := Finset.mem_range.1 hi
    rw [getD_map_of_lt (fun r => r.getD j 0) X i (hX ▸ hi') 0 [], hEval i hi']
  simp only [gdIteration]
  refine ⟨?_, ?_, ?_⟩
  · rw [hGval 0 (by omega)]
  · rw [List.length_zipWith, List.length_drop, hGlen, hw]
    omega
  · intro k hk
    rw [getD_zipWith_of_lt (· - ·) w _ k (hw ▸ hk)
        (by rw [List.length_drop, hGlen]; omega) 0 0 0,
      getD_drop_of_lt _ 1 k 0 (by rw [hGlen]; omega),
      hGval (1 + k) (by omega), Nat.add_comm 1 k]

/-- Witness for C1: one iteration at `X = [[1,2],[1,3]]`, `y = [1,2]`,
`α = 1`, intercept `1`, coefficients `[1]` — the updated intercept equals
the claimed formula. -/
theorem gd_iteration_update_witness :
    (gdIteration [[1,2],[1,3]] [1,2] 1 (1, [1])).2.1 =
      1 - ((1:ℚ) / (2:ℕ)) * (∑ i ∈ Finset.range 2,
        (([[1,2],[1,3]] : List (List ℚ)).getD i []).getD 0 0 *
        ((1 + ∑ j ∈ Finset.range 1,
            (([[1,2],[1,3]] : List (List ℚ)).getD i []).getD (j+1) 0 *
            ([1] : List ℚ).getD j 0) - ([1,2] : List ℚ).getD i 0)) :=
  (gd_iteration_update [[1,2],[1,3]] [1,2] 1 1 [1] 2 1 (by decide) rfl rfl rfl
    (by intro r hr; fin_cases hr <;> rfl)
    (by intro r hr; fin_cases hr <;> rfl)).1

/-- Shared lemma: one gradient-descent update keeps the coefficient vector
at length `min w.length (cols - 1)` where `cols` is the width of the
bias-augmented matrix. -/
theorem gdState_w_length (X : List (List ℚ)) (y : List ℚ) (α : ℚ) (s : ℚ × List ℚ) :
    (gdState X y α s).2.length = min s.2.length ((X.headD []).length - 1) := by
  simp only [gdState, gdIteration]
  rw [List.length_zipWith, List.length_drop, List.length_map, matVec,
    List.length_map, npTranspose, List.length_map, List.length_range]

/-- Shared lemma: iterating the gradient-descent update preserves a
coefficient vector of length `cols - 1`. -/
theorem gdState_iterate_w_length (X : List (List ℚ)) (y : List ℚ) (α : ℚ) :
    ∀ (k : ℕ) (s : ℚ × List ℚ), s.2.length = (X.headD []).length - 1 →
      (((gdState X y α)^[k]) s).2.length = (X.headD []).length - 1 := by
  intro k
  induction k with
  | zero => intro s hs; simpa using hs
  | succ k ih =>
    intro s hs
    rw [Function.iterate_succ_apply]
    refine ih _ ?_
    rw [gdState_w_length, hs]
    omega

/-- Shared lemma: the final state of the gradient-descent loop is the
`T`-fold iterate of the per-iteration update. -/
theorem gdLoop_final (X : List (List ℚ)) (y : List ℚ) (α : ℚ) :
    ∀ (T : ℕ) (s : ℚ × List ℚ), (gdLoop X y α T s).1 = ((gdState X y α)^[T]) s := by
  intro T
  induction T with
  | zero => intro s; rfl
  | succ T ih =>
    intro s
    rw [Function.iterate_succ_apply, ← ih (gdState X y α s)]
    rfl

/-- Shared lemma: the recorded loss of an iteration started in state
`(b, w)` is the mean squared error of the predictions made with `(b, w)`
(i.e. before that iteration's update). -/
theorem gdLoss_eq (X : List (List ℚ)) (y : List ℚ) (α b : ℚ) (w : List ℚ)
    (n p : ℕ) (hX : X.length = n) (hy : y.length = n)
    (hw : w.length = p) (hrow : ∀ r ∈ X, r.length = p + 1) :
    gdLoss X y α (b, w) =
      (∑ i ∈ Finset.range n,
        ((b + ∑ j ∈ Finset.range p, (X.getD i []).getD (j+1) 0 * w.getD j 0)
          - y.getD i 0)^2) / n := by
  have hXlen : ∀ i, i < n → (X.getD i []).length = p + 1 := fun i hi =>
    hrow _ (getD_mem_of_lt X i (hX ▸ hi) [])
  have hMlen : (X.map (List.drop 1)).length = n := by simpa using hX
  have hmvlen : (matVec (X.map (List.drop 1)) w).length = n := by
    simpa [matVec] using hX
  have hPlen : (predictRows (X.map (List.drop 1)) w b).length = n := by
    simpa [predictRows] using hmvlen
  have hPval : ∀ i, i < n → (predictRows (X.map (List.drop 1)) w b).getD i 0 =
      b + ∑ j ∈ Finset.range p, (X.getD i []).getD (j+1) 0 * w.getD j 0 := by
    intro i hi
    rw [predictRows,
      getD_map_of_lt (fun v => v + b) _ i (hmvlen ▸ hi) 0 0,
      matVec, getD_map_of_lt (fun r => npDot r w) _ i (hMlen ▸ hi) 0 [],
      getD_map_of_lt (List.drop 1) X i (hX ▸ hi) [] []]
    have hdl : ((X.getD i []).drop 1).length = p := by
      rw [List.length_drop, hXlen i hi]
      omega
    rw [npDot_eq_sum _ w p hdl hw, add_comm]
    congr 1
    refine Finset.sum_congr rfl (fun j hj => ?_)
    have hj' : j < p := Finset.mem_range.1 hj
    rw [getD_drop_of_lt (X.getD i []) 1 j 0 (by rw [hXlen i hi]; omega),
      Nat.add_comm 1 j]
  have hElen :
      (List.zipWith (· - ·) (predictRows (X.map (List.drop 1)) w b) y).length = n := by
    rw [List.length_zipWith, hPlen, hy]
    omega
  have hEval : ∀ i, i < n →
      (List.zipWith (· - ·) (predictRows (X.map (List.drop 1)) w b) y).getD i 0 =
      (b + ∑ j ∈ Finset.range p, (X.getD i []).getD (j+1) 0 * w.getD j 0)
        - y.getD i 0 := by
    intro i hi
    rw [getD_zipWith_of_lt (· - ·) _ y i (hPlen ▸ hi) (hy ▸ hi) 0 0 0, hPval i hi]
  simp only [gdLoss, gdIteration]
  rw [npMean, List.length_map, hElen,
    sum_map_eq (fun e => e^2) n _ hElen]
  congr 1
  refine Finset.sum_congr rfl (fun i hi => ?_)
  rw [hEval i (Finset.mem_range.1 hi)]

/-- Claim C8: the gradient-descent loop performs exactly `T` iterations
with no convergence check, the loss history and the parameter-snapshot
history both have length exactly `T`, the snapshot for iteration `t` is the
parameter state before iteration `t`'s update (the `t`-fold iterate of the
update map), and the loss entry for iteration `t` is the mean squared error
of the predictions made from that pre-update state. -/
theorem gd_loop_histories (X : List (List ℚ)) (y : List ℚ) (α : ℚ) (T : ℕ)
    (s : ℚ × List ℚ) (n p : ℕ) (hX : X.length = n) (hy : y.length = n)
    (hs : s.2.length = p) (hrow : ∀ r ∈ X, r.length = p + 1)
    (hcols : (X.headD []).length = p + 1) :
    (gdLoop X y α T s).2.1.length = T ∧
    (gdLoop X y α T s).2.2.length = T ∧
    (∀ t, t < T →
      (gdLoop X y α T s).2.2.getD t (0, []) = ((gdState X y α)^[t]) s) ∧
    (∀ t, t < T →
      (gdLoop X y α T s).2.1.getD t 0 =
        (∑ i ∈ Finset.range n,
          (((((gdState X y α)^[t]) s).1 +
            ∑ j ∈ Finset.range p,
              (X.getD i []).getD (j+1) 0 * ((((gdState X y α)^[t]) s).2).getD j 0)
            - y.getD i 0)^2) / n) := by
  induction T generalizing s with
  | zero =>
    exact ⟨rfl, rfl, fun t ht => absurd ht (by omega), fun t ht => absurd ht (by omega)⟩
  | succ T ih =>
    have hs' : (gdState X y α s).2.length = p := by
      rw [gdState_w_length, hs, hcols]
      omega
    obtain ⟨ih1, ih2, ih3, ih4⟩ := ih (gdState X y α s) hs'
    have hunfold : gdLoop X y α (T+1) s =
        ((gdLoop X y α T (gdState X y α s)).1,
         gdLoss X y α s :: (gdLoop X y α T (gdState X y α s)).2.1,
         s :: (gdLoop X y α T (gdState X y α s)).2.2) := rfl
    refine ⟨?_, ?_, ?_, ?_⟩
    · rw [hunfold]
      simpa using ih1
    · rw [hunfold]
      simpa using ih2
    · intro t ht
      rw [hunfold]
      cases t with
      | zero => rfl
      | succ t =>
        have ht' : t < T := by omega
        show (gdLoop X y α T (gdState X y α s)).2.2.getD t (0, []) = _
        rw [ih3 t ht', Function.iterate_succ_apply]
    · intro t ht
      rw [hunfold]
      cases t with
      | zero =>
        show gdLoss X y α s = _
        have hsplit : s = (s.1, s.2) := rfl
        rw [Function.iterate_zero_apply]
        rw [hsplit]
        exact gdLoss_eq X y α s.1 s.2 n p hX hy hs hrow
      | succ t =>
        have ht' : t < T := by omega
        show (gdLoop X y α T (gdState X y α s)).2.1.getD t 0 = _
        rw [ih4 t ht', Function.iterate_succ_apply]

/-- Witness for C8: one iteration on a one-row matrix records exactly one
loss value. -/
theorem gd_loop_histories_witness :
    (gdLoop [[1, 2]] [3] 1 1 ((0 : ℚ), ([0] : List ℚ))).2.1.length = 1 :=
  (gd_loop_histories [[1, 2]] [3] 1 1 ((0 : ℚ), ([0] : List ℚ)) 1 1 rfl rfl rfl
    (by intro r hr; fin_cases hr <;> rfl) rfl).1

/-- Shared lemma: `fit_multiple` writes both parameters, with one
coefficient per non-bias column of its (bias-augmented) input. -/
theorem fit_multiple_coeff_length (M : List (List ℚ)) (y : List ℚ) :
    ∃ b w, fit_multiple M y = ⟨some b, some w⟩ ∧
      w.length = (M.headD []).length - 1 := by
  refine ⟨_, _, rfl, ?_⟩
  have h1 : ∀ (A : List (List ℚ)) (v : List ℚ), (matVec A v).length = A.length :=
    fun A v => List.length_map _ _
  have h2 : ∀ A B : List (List ℚ), (matMul A B).length = A.length :=
    fun A B => List.length_map _ _
  have h3 : ∀ A : List (List ℚ), (pinvL A).length = A.length := by
    intro A
    rw [pinvL, List.length_map, adjL, List.length_map, List.length_range]
  have h4 : ∀ B : List (List ℚ), (npTranspose B).length = (B.headD []).length :=
    fun B => by rw [npTranspose, List.length_map, List.length_range]
  rw [List.length_drop, h1, h2, h3, h2, h4]

/-- Shared lemma: `fit_gradient_descent` writes both parameters, with one
coefficient per non-bias column of its (bias-augmented) input. -/
theorem fit_gd_coeff_length (M : List (List ℚ)) (y : List ℚ) (lr : ℚ)
    (iters : ℕ) (rb : ℚ) (rc : ℕ → ℚ) :
    ∃ b w, (fit_gradient_descent M y lr iters rb rc).1 = ⟨some b, some w⟩ ∧
      w.length = (M.headD []).length - 1 := by
  refine ⟨_, _, rfl, ?_⟩
  rw [gdLoop_final]
  refine gdState_iterate_w_length M y lr iters _ ?_
  simp

/-- Shared lemma: after the reshape and bias prepend of `fit`, the number
of non-bias columns is the feature count of the original input. -/
theorem addBias_cols (X : NDInput) (hne : nonemptyInput X) :
    ((addBias (reshape2d X)).headD []).length - 1 = featureCount X := by
  cases X with
  | flat x =>
    cases x with
    | nil => exact absurd rfl hne
    | cons v t => rfl
  | mat M =>
    cases M with
    | nil => exact absurd rfl hne
    | cons r t =>
      show ((1 :: r : List ℚ)).length - 1 = r.length
      simp

/-- Claim C10: the model parameters are both unset at construction; a fit
call with a valid method ignores (overwrites) the previous state; and every
successful fit writes both parameters, with exactly one coefficient per
feature of the fitted input. -/
theorem model_lifecycle_invariant :
    (LinearRegressor.init.intercept = none ∧
      LinearRegressor.init.coefficients = none) ∧
    (∀ (self self' : LinearRegressor) (X : NDInput) (y : List ℚ) (method : String)
      (lr : ℚ) (iters : ℕ) (rb : ℚ) (rc : ℕ → ℚ),
      method = "least_squares" ∨ method = "gradient_descent" →
      self.fit X y method lr iters rb rc = self'.fit X y method lr iters rb rc) ∧
    (∀ (self : LinearRegressor) (X : NDInput) (y : List ℚ) (method : String)
      (lr : ℚ) (iters : ℕ) (rb : ℚ) (rc : ℕ → ℚ),
      nonemptyInput X → (self.fit X y method lr iters rb rc).2 = none →
      ∃ b w, (self.fit X y method lr iters rb rc).1 = ⟨some b, some w⟩ ∧
        w.length = featureCount X) := by
  refine ⟨⟨rfl, rfl⟩, ?_, ?_⟩
  · intro self self' X y method lr iters rb rc hm
    rcases hm with h | h <;> subst h <;> simp [LinearRegressor.fit]
  · intro self X y method lr iters rb rc hne hnone
    by_cases hm : method = "least_squares" ∨ method = "gradient_descent"
    · by_cases h2 : method = "least_squares"
      · subst h2
        have hfit : self.fit X y "least_squares" lr iters rb rc =
            (fit_multiple (addBias (reshape2d X)) y, none) := by
          simp [LinearRegressor.fit]
        rw [hfit]
        obtain ⟨b, w, hw, hlen⟩ := fit_multiple_coeff_length (addBias (reshape2d X)) y
        exact ⟨b, w, hw, by rw [hlen, addBias_cols X hne]⟩
      · have h3 : method = "gradient_descent" := hm.resolve_left h2
        subst h3
        have hfit : self.fit X y "gradient_descent" lr iters rb rc =
            ((fit_gradient_descent (addBias (reshape2d X)) y lr iters rb rc).1,
              none) := by
          simp [LinearRegressor.fit]
        rw [hfit]
        obtain ⟨b, w, hw, hlen⟩ :=
          fit_gd_coeff_length (addBias (reshape2d X)) y lr iters rb rc
        exact ⟨b, w, hw, by rw [hlen, addBias_cols X hne]⟩
    · rw [LinearRegressor.fit, if_neg hm] at hnone
      simp at hnone

/-- Witness for C10: a concrete successful least-squares fit on a 1-column
matrix yields a model with exactly one coefficient. -/
theorem model_lifecycle_invariant_witness :
    ∃ b w, (LinearRegressor.init.fit (.mat [[1], [2], [3]]) [2, 4, 6]
      "least_squares" 1 10 0 (fun _ => 0)).1 = ⟨some b, some w⟩ ∧
      w.length = featureCount (.mat [[1], [2], [3]]) :=
  model_lifecycle_invariant.2.2 LinearRegressor.init (.mat [[1], [2], [3]])
    [2, 4, 6] "least_squares" 1 10 0 (fun _ => 0)
    (by simp [nonemptyInput]) (by simp [LinearRegressor.fit])

/-! ## Lemmas on `npUnique` and indicator rows (for the one-hot encoder) -/

theorem mem_insertSorted (x a : Cell) :
    ∀ l : List Cell, (a ∈ insertSorted x l ↔ a = x ∨ a ∈ l) := by
  intro l
  induction l with
  | nil => simp [insertSorted]
  | cons y ys ih =>
    rw [insertSorted]
    split_ifs with h1 <;> simp [List.mem_cons, ih] <;> tauto

theorem nodup_insertSorted (x : Cell) :
    ∀ l : List Cell, x ∉ l → l.Nodup → (insertSorted x l).Nodup := by
  intro l
  induction l with
  | nil => intro _ _; simp [insertSorted]
  | cons y ys ih =>
    intro hx hl
    obtain ⟨hy, hys⟩ := List.nodup_cons.1 hl
    have hxy : x ≠ y := fun h => hx (h ▸ List.mem_cons_self y ys)
    have hxys : x ∉ ys := fun h => hx (List.mem_cons_of_mem y h)
    rw [insertSorted]
    split_ifs with h1
    · exact List.nodup_cons.2 ⟨by simp [List.mem_cons, hxy, hxys], hl⟩
    · refine List.nodup_cons.2 ⟨?_, ih hxys hys⟩
      rw [mem_insertSorted]
      rintro (h | h)
      · exact hxy h.symm
      · exact hy h

theorem cellMem_iff (x : Cell) : ∀ l : List Cell, cellMem x l = true ↔ x ∈ l := by
  intro l
  induction l with
  | nil => simp [cellMem]
  | cons y ys ih =>
    rw [cellMem, Bool.or_eq_true, decide_eq_true_eq, ih, List.mem_cons]

theorem mem_insertSortedNoDup (x a : Cell) (l : List Cell) :
    a ∈ insertSortedNoDup x l ↔ a = x ∨ a ∈ l := by
  rw [insertSortedNoDup]
  by_cases hx : cellMem x l = true
  · rw [if_pos hx]
    have hxl : x ∈ l := (cellMem_iff x l).1 hx
    constructor
    · exact Or.inr
    · rintro (rfl | h)
      · exact hxl
      · exact h
  · rw [if_neg hx]
    exact mem_insertSorted x a l

theorem nodup_insertSortedNoDup (x : Cell) (l : List Cell) (hl : l.Nodup) :
    (insertSortedNoDup x l).Nodup := by
  rw [insertSortedNoDup]
  by_cases hx : cellMem x l = true
  · rw [if_pos hx]
    exact hl
  · rw [if_neg hx]
    exact nodup_insertSorted x l (fun hm => hx ((cellMem_iff x l).2 hm)) hl

theorem mem_npUnique (a : Cell) : ∀ l : List Cell, (a ∈ npUnique l ↔ a ∈ l) := by
  intro l
  induction l with
  | nil => simp [npUnique]
  | cons v t ih =>
    show a ∈ insertSortedNoDup v (npUnique t) ↔ _
    rw [mem_insertSortedNoDup, ih, List.mem_cons]

theorem nodup_npUnique : ∀ l : List Cell, (npUnique l).Nodup := by
  intro l
  induction l with
  | nil => simp [npUnique]
  | cons v t ih => exact nodup_insertSortedNoDup v (npUnique t) ih

theorem indicRow_length (u : List Cell) (c : Cell) :
    (indicRow u c).length = u.length := List.length_map u _

theorem cellOne_ne_cellZero : cellOne ≠ cellZero := by decide

theorem count_indicRow_not_mem (c : Cell) :
    ∀ u : List Cell, c ∉ u → (indicRow u c).count cellOne = 0 := by
  intro u
  induction u with
  | nil => intro _; rfl
  | cons v u' ih =>
    intro hc
    have hcv : c ≠ v := fun h => hc (h ▸ List.mem_cons_self v u')
    have hcu : c ∉ u' := fun h => hc (List.mem_cons_of_mem v h)
    rw [indicRow, List.map_cons, List.count_cons, if_neg hcv]
    have h0 : (List.map (fun val => if c = val then cellOne else cellZero) u').count cellOne = 0 :=
      ih hcu
    rw [h0]
    decide

theorem count_indicRow_mem (c : Cell) :
    ∀ u : List Cell, u.Nodup → c ∈ u → (indicRow u c).count cellOne = 1 := by
  intro u
  induction u with
  | nil => intro _ hc; simp at hc
  | cons v u' ih =>
    intro hu hc
    rw [indicRow, List.map_cons, List.count_cons]
    by_cases hcv : c = v
    · subst hcv
      have hnc : c ∉ u' := (List.nodup_cons.1 hu).1
      have h0 : (List.map (fun val => if c = val then cellOne else cellZero) u').count cellOne = 0 :=
        count_indicRow_not_mem c u' hnc
      rw [if_pos rfl, h0]
      decide
    · have hc' : c ∈ u' := (List.mem_cons.1 hc).resolve_left hcv
      have h1 : (List.map (fun val => if c = val then cellOne else cellZero) u').count cellOne = 1 :=
        ih (List.nodup_cons.1 hu).2 hc'
      rw [if_neg hcv, h1]
      decide

theorem indicRow_binary (u : List Cell) (c : Cell) :
    ∀ x ∈ indicRow u c, x = cellZero ∨ x = cellOne := by
  intro x hx
  obtain ⟨v, _, hv⟩ := List.mem_map.1 hx
  by_cases h : c = v
  · rw [if_pos h] at hv
    exact Or.inr hv.symm
  · rw [if_neg h] at hv
    exact Or.inl hv.symm

theorem indicRow_inj (c d : Cell) :
    ∀ u : List Cell, u.Nodup → c ∈ u → d ∈ u →
      indicRow u c = indicRow u d → c = d := by
  intro u
  induction u with
  | nil => intro _ hc; simp at hc
  | cons v u' ih =>
    intro hu hc hd h
    rw [indicRow, indicRow, List.map_cons, List.map_cons] at h
    injection h with h1 h2
    by_cases hcv : c = v <;> by_cases hdv : d = v
    · exact hcv.trans hdv.symm
    · rw [if_pos hcv, if_neg hdv] at h1
      exact absurd h1 (by decide)
    · rw [if_neg hcv, if_pos hdv] at h1
      exact absurd h1 (by decide)
    · exact ih (List.nodup_cons.1 hu).2 ((List.mem_cons.1 hc).resolve_left hcv)
        ((List.mem_cons.1 hd).resolve_left hdv) h2

theorem indicRow_drop_count (c : Cell) (u : List Cell) (hu : u.Nodup) (hc : c ∈ u) :
    ((indicRow u c).drop 1).count cellOne = 0 ∨
    ((indicRow u c).drop 1).count cellOne = 1 := by
  cases u with
  | nil => simp at hc
  | cons v u' =>
    have hdrop : (indicRow (v :: u') c).drop 1 = indicRow u' c := rfl
    rw [hdrop]
    by_cases hcv : c = v
    · subst hcv
      exact Or.inl (count_indicRow_not_mem c u' (List.nodup_cons.1 hu).1)
    · exact Or.inr (count_indicRow_mem c u' (List.nodup_cons.1 hu).2
        ((List.mem_cons.1 hc).resolve_left hcv))

theorem indicRow_drop_ne (c d : Cell) (u : List Cell) (hu : u.Nodup)
    (hc : c ∈ u) (hd : d ∈ u) (hne : c ≠ d) :
    (indicRow u c).drop 1 ≠ (indicRow u d).drop 1 := by
  cases u with
  | nil => simp at hc
  | cons v u' =>
    have hdc : (indicRow (v :: u') c).drop 1 = indicRow u' c := rfl
    have hdd : (indicRow (v :: u') d).drop 1 = indicRow u' d := rfl
    rw [hdc, hdd]
    obtain ⟨hv, hu'⟩ := List.nodup_cons.1 hu
    by_cases hcv : c = v
    · subst hcv
      have hd' : d ∈ u' := (List.mem_cons.1 hd).resolve_left (fun h => hne h.symm)
      intro heq
      have h0 := count_indicRow_not_mem c u' hv
      have h1 := count_indicRow_mem d u' hu' hd'
      rw [heq] at h0
      omega
    · by_cases hdv : d = v
      · subst hdv
        have hc' : c ∈ u' := (List.mem_cons.1 hc).resolve_left hcv
        intro heq
        have h0 := count_indicRow_not_mem d u' hv
        have h1 := count_indicRow_mem c u' hu' hc'
        rw [heq] at h1
        omega
      · intro heq
        exact hne (indicRow_inj c d u' hu' ((List.mem_cons.1 hc).resolve_left hcv)
          ((List.mem_cons.1 hd).resolve_left hdv) heq)

theorem take_append_of_length {α : Type _} (A B : List α) (k : ℕ) (h : A.length = k) :
    (A ++ B).take k = A := by
  subst h
  exact List.take_left A B

theorem drop_append_of_length {α : Type _} (A B : List α) (k : ℕ) (h : A.length = k) :
    (A ++ B).drop k = B := by
  subst h
  exact List.drop_left A B

/-- Shared lemma: the shape of row `i` of the matrix produced by one
one-hot encoding step: the original row with entry `index` replaced by the
(possibly first-dropped) indicator block of that row's category. -/
theorem oneHotStep_row (X : List (List Cell)) (d : Bool) (index i : ℕ)
    (hi : i < X.length) (hlen : index < (X.getD i []).length) :
    (oneHotStep X d X index).getD i [] =
      (X.getD i []).take index ++
      (if d then (indicRow (npUnique (X.map (fun r => r.getD index cellZero)))
          ((X.getD i []).getD index cellZero)).drop 1
        else indicRow (npUnique (X.map (fun r => r.getD index cellZero)))
          ((X.getD i []).getD index cellZero)) ++
      (X.getD i []).drop (index + 1) := by
  have hcollen : (X.map (fun r => r.getD index cellZero)).length = X.length :=
    List.length_map X _
  have hohlen :
      ((X.map (fun r => r.getD index cellZero)).map
        (fun category => indicRow
          (npUnique (X.map (fun r => r.getD index cellZero))) category)).length
        = X.length := by
    rw [List.length_map, hcollen]
  have hdellen : (deleteCol X index).length = X.length := List.length_map X _
  have hdelval : (deleteCol X index).getD i [] = (X.getD i []).eraseIdx index := by
    rw [deleteCol]
    exact getD_map_of_lt (fun r => List.eraseIdx r index) X i hi [] []
  have hohval :
      ((X.map (fun r => r.getD index cellZero)).map
        (fun category => indicRow
          (npUnique (X.map (fun r => r.getD index cellZero))) category)).getD i []
        = indicRow (npUnique (X.map (fun r => r.getD index cellZero)))
            ((X.getD i []).getD index cellZero) := by
    rw [getD_map_of_lt _ _ i (hcollen ▸ hi) [] cellZero,
      getD_map_of_lt (fun r => r.getD index cellZero) X i hi cellZero []]
  have htake : ((X.getD i []).eraseIdx index).take index = (X.getD i []).take index := by
    rw [List.eraseIdx_eq_take_drop_succ]
    exact take_append_of_length _ _ index
      (by rw [List.length_take]; omega)
  have hdrop : ((X.getD i []).eraseIdx index).drop index
      = (X.getD i []).drop (index + 1) := by
    rw [List.eraseIdx_eq_take_drop_succ]
    exact drop_append_of_length _ _ index
      (by rw [List.length_take]; omega)
  cases d with
  | false =>
    show (insertCols (deleteCol X index) index
        ((X.map (fun r => r.getD index cellZero)).map
          (fun category => indicRow
            (npUnique (X.map (fun r => r.getD index cellZero))) category))).getD i []
      = (X.getD i []).take index ++
        indicRow (npUnique (X.map (fun r => r.getD index cellZero)))
          ((X.getD i []).getD index cellZero) ++
        (X.getD i []).drop (index + 1)
    rw [insertCols,
      getD_zipWith_of_lt (fun r h => r.take index ++ h ++ r.drop index)
        _ _ i (hdellen ▸ hi) (hohlen ▸ hi) [] [] [],
      hdelval, hohval, htake, hdrop]
  | true =>
    show (insertCols (deleteCol X index) index
        (((X.map (fun r => r.getD index cellZero)).map
          (fun category => indicRow
            (npUnique (X.map (fun r => r.getD index cellZero))) category)).map
          (List.drop 1))).getD i []
      = (X.getD i []).take index ++
        (indicRow (npUnique (X.map (fun r => r.getD index cellZero)))
          ((X.getD i []).getD index cellZero)).drop 1 ++
        (X.getD i []).drop (index + 1)
    rw [insertCols,
      getD_zipWith_of_lt (fun r h => r.take index ++ h ++ r.drop index)
        _ _ i (hdellen ▸ hi) (by rw [List.length_map, hohlen]; exact hi) [] [] [],
      hdelval,
      getD_map_of_lt (List.drop 1) _ i (hohlen ▸ hi) [] [],
      hohval, htake, hdrop]

/-- Shared lemma: extracting the spliced block out of a row. -/
theorem block_extract {α : Type _} (A h B : List α) (k m : ℕ)
    (hA : A.length = k) (hh : h.length = m) :
    ((A ++ h ++ B).drop k).take m = h := by
  rw [List.append_assoc, drop_append_of_length A (h ++ B) k hA,
    take_append_of_length h B m hh]

/-- Claim C9: encoding one column whose `k` distinct categories are
`npUnique` of the column: with `drop_first = false` the `k` new columns of
each row form the indicator row of that row's category — binary entries
with exactly one `1`; with `drop_first = true` the `k−1` new columns are
binary with at most one `1`, and rows with different original categories
get different encodings. -/
theorem one_hot_row_sums (X : List (List Cell)) (index : ℕ)
    (hrowlen : ∀ r ∈ X, index < r.length) :
    ∀ i, i < X.length →
    let u := npUnique (X.map (fun r => r.getD index cellZero))
    let cat : ℕ → Cell := fun j => (X.getD j []).getD index cellZero
    let blk0 := (((one_hot_encode X [index] false).getD i []).drop index).take u.length
    let blk1 : ℕ → List Cell := fun j =>
      (((one_hot_encode X [index] true).getD j []).drop index).take (u.length - 1)
    (blk0 = indicRow u (cat i) ∧ blk0.length = u.length ∧
      blk0.count cellOne = 1 ∧ (∀ x ∈ blk0, x = cellZero ∨ x = cellOne)) ∧
    (blk1 i = (indicRow u (cat i)).drop 1 ∧ (blk1 i).length = u.length - 1 ∧
      ((blk1 i).count cellOne = 0 ∨ (blk1 i).count cellOne = 1) ∧
      (∀ x ∈ blk1 i, x = cellZero ∨ x = cellOne) ∧
      (∀ j, j < X.length → cat j ≠ cat i → blk1 j ≠ blk1 i)) := by
  intro i hi u cat blk0 blk1
  have hcollen : (X.map (fun r => r.getD index cellZero)).length = X.length :=
    List.length_map X _
  have hcat : ∀ j, j < X.length → cat j ∈ u := by
    intro j hj
    have h1 : (X.map (fun r => r.getD index cellZero)).getD j cellZero = cat j :=
      getD_map_of_lt (fun r => r.getD index cellZero) X j hj cellZero []
    have h2 : (X.map (fun r => r.getD index cellZero)).getD j cellZero ∈
        X.map (fun r => r.getD index cellZero) :=
      getD_mem_of_lt _ j (hcollen ▸ hj) cellZero
    rw [h1] at h2
    exact (mem_npUnique (cat j) _).2 h2
  have hnd : u.Nodup := nodup_npUnique _
  have hlenrow : ∀ j, j < X.length → index < (X.getD j []).length := fun j hj =>
    hrowlen _ (getD_mem_of_lt X j hj [])
  have htakelen : ∀ j, j < X.length → ((X.getD j []).take index).length = index := by
    intro j hj
    rw [List.length_take]
    have := hlenrow j hj
    omega
  have hblk0 : blk0 = indicRow u (cat i) := by
    show (((one_hot_encode X [index] false).getD i []).drop index).take u.length = _
    have hrow : (one_hot_encode X [index] false).getD i []
        = (X.getD i []).take index ++ indicRow u (cat i)
          ++ (X.getD i []).drop (index + 1) := by
      have h := oneHotStep_row X false index i hi (hlenrow i hi)
      rw [if_neg (by simp)] at h
      exact h
    rw [hrow]
    exact block_extract _ _ _ index u.length (htakelen i hi) (indicRow_length u (cat i))
  have hblk1 : ∀ j, j < X.length → blk1 j = (indicRow u (cat j)).drop 1 := by
    intro j hj
    show (((one_hot_encode X [index] true).getD j []).drop index).take (u.length - 1) = _
    have hrow : (one_hot_encode X [index] true).getD j []
        = (X.getD j []).take index ++ (indicRow u (cat j)).drop 1
          ++ (X.getD j []).drop (index + 1) := by
      have h := oneHotStep_row X true index j hj (hlenrow j hj)
      rw [if_pos rfl] at h
      exact h
    rw [hrow]
    refine block_extract _ _ _ index (u.length - 1) (htakelen j hj) ?_
    rw [List.length_drop, indicRow_length]
  refine ⟨⟨hblk0, ?_, ?_, ?_⟩, hblk1 i hi, ?_, ?_, ?_, ?_⟩
  · rw [hblk0, indicRow_length]
  · rw [hblk0]
    exact count_indicRow_mem (cat i) u hnd (hcat i hi)
  · rw [hblk0]
    exact indicRow_binary u (cat i)
  · rw [hblk1 i hi, List.length_drop, indicRow_length]
  · rw [hblk1 i hi]
    exact indicRow_drop_count (cat i) u hnd (hcat i hi)
  · rw [hblk1 i hi]
    intro x hx
    exact indicRow_binary u (cat i) x (List.mem_of_mem_drop hx)
  · intro j hj hne
    rw [hblk1 i hi, hblk1 j hj]
    exact indicRow_drop_ne (cat j) (cat i) u hnd (hcat j hj) (hcat i hi) hne

/-- Witness for C9: on the example column `["a", "b", "a"]`, the two
indicator entries of row 0 contain exactly one `1`. -/
theorem one_hot_row_sums_witness :
    ((((one_hot_encode [[Sum.inr "a"], [Sum.inr "b"], [Sum.inr "a"]] [0]
          false).getD 0 []).drop 0).take
      (npUnique ([[Sum.inr "a"], [Sum.inr "b"], [Sum.inr "a"]].map
        (fun r => r.getD 0 cellZero))).length).count cellOne = 1 := by
  have h := one_hot_row_sums [[Sum.inr "a"], [Sum.inr "b"], [Sum.inr "a"]] 0
    (by intro r hr; fin_cases hr <;> decide) 0 (by decide)
  exact h.1.2.2.1

end Lab24
